import Mathlib

/-!
Verification of NumericalIntegration.h (PREDICT-EPFL/yakf).

The header defines a fixed-step ODE integrator template over a functor
`f`, a value type supporting vector-space operations, a scalar type, and
an integration-mode selector (Euler or RungeKutta).  We embed the scalar
type as the rationals and the value type as an arbitrary module over the
rationals; the two stepping loops are translated as well-founded
recursion on the remaining time span, carrying the hypothesis that the
step size is positive (which is exactly the domain on which the C++
loops terminate).  The loop body is additionally exposed as a step
function on (state, remaining-span) pairs so that the iteration-count
and non-termination properties can be stated about the literal loop.
-/

namespace KalmanFilter

/-- Enum value of the Euler member of IntegrationMode.  The C++ member has
underlying value 0; we model a mode variable as a natural number because a
C++ enum object can carry values outside the declared members, which the
default branch of integrate is there to catch. -/
def Euler : ℕ := 0

/-- Enum value of the RungeKutta member of IntegrationMode (underlying
value 1). -/
def RungeKutta : ℕ := 1

/-- The measure that decreases across one iteration of either stepping
loop: with step size h > 0 and remaining span t > 0, the ceiling of
(t - h) / h is one less than the ceiling of t / h. -/
lemma steps_lt (h t : ℚ) (hh : 0 < h) (ht : 0 < t) :
    (⌈(t - h) / h⌉).toNat < (⌈t / h⌉).toNat := by
  have h1 : (t - h) / h = t / h - 1 := by
    rw [sub_div, div_self hh.ne']
  have h2 : ⌈t / h - 1⌉ = ⌈t / h⌉ - 1 := by
    exact_mod_cast Int.ceil_sub_int (t / h) 1
  have h3 : 0 < ⌈t / h⌉ := Int.ceil_pos.mpr (div_pos ht hh)
  rw [h1, h2]
  omega

section Defs

variable {V : Type} [AddCommGroup V] [Module ℚ V]

/-- Forward Euler loop of NumericalIntegration.h, lines 27-35: with the
working state x initialised to x0 (the for-init `x = x0`), while
time_span > 0 the body evaluates dx = f(x) and performs `x += h * dx`,
and the for-update performs `time_span -= h`.  The reference xout aliases
x, so the returned value is the final working state. -/
def ForwardEuler (f : V → V) (h : ℚ) (hh : 0 < h) (t : ℚ) (x : V) : V :=
  if ht : 0 < t then ForwardEuler f h hh (t - h) (x + h • f x) else x
termination_by (⌈t / h⌉).toNat
decreasing_by exact steps_lt h t hh ht

/-- RK4 loop of NumericalIntegration.h, lines 38-49: while time_span > 0
the body evaluates k1 = f(x), k2 = f(x + h/2 * k1), k3 = f(x + h/2 * k2),
k4 = f(x + h * k3) and performs `x += h/6 * (k1 + 2*k2 + 2*k3 + k4)`;
the for-update performs `time_span -= h`. -/
def RK4 (f : V → V) (h : ℚ) (hh : 0 < h) (t : ℚ) (x : V) : V :=
  if ht : 0 < t then
    let k1 := f x
    let k2 := f (x + (h / 2) • k1)
    let k3 := f (x + (h / 2) • k2)
    let k4 := f (x + h • k3)
    RK4 f h hh (t - h) (x + (h / 6) • (k1 + (2 : ℚ) • k2 + (2 : ℚ) • k3 + k4))
  else x
termination_by (⌈t / h⌉).toNat
decreasing_by exact steps_lt h t hh ht

/-- Iteration count of the stepping loops.  Both ForwardEuler and RK4
drive their for-loop by the same control: test time_span > 0, run the
body, subtract h.  This function counts those iterations. -/
def loopSteps (h : ℚ) (hh : 0 < h) (t : ℚ) : ℕ :=
  if ht : 0 < t then loopSteps h hh (t - h) + 1 else 0
termination_by (⌈t / h⌉).toNat
decreasing_by exact steps_lt h t hh ht

/-- One iteration of the ForwardEuler loop body acting on the pair of the
working state and the remaining time span: x becomes x + h * f(x) and
time_span becomes time_span - h. -/
def eulerStep (f : V → V) (h : ℚ) (s : V × ℚ) : V × ℚ :=
  (s.1 + h • f s.1, s.2 - h)

/-- One iteration of the RK4 loop body acting on the pair of the working
state and the remaining time span. -/
def rk4Step (f : V → V) (h : ℚ) (s : V × ℚ) : V × ℚ :=
  let k1 := f s.1
  let k2 := f (s.1 + (h / 2) • k1)
  let k3 := f (s.1 + (h / 2) • k2)
  let k4 := f (s.1 + h • k3)
  (s.1 + (h / 6) • (k1 + (2 : ℚ) • k2 + (2 : ℚ) • k3 + k4), s.2 - h)

/-- Method dispatch of NumericalIntegration::integrate, lines 64-79: the
switch runs ForwardEuler when mode is Euler, RK4 when mode is RungeKutta,
and in the default case does nothing (the XXX TODO branch), leaving the
output parameter xout holding whatever value it held at the call. -/
def integrate (f : V → V) (mode : ℕ) (h : ℚ) (hh : 0 < h) (t : ℚ)
    (x0 xout : V) : V :=
  if mode = Euler then ForwardEuler f h hh t x0
  else if mode = RungeKutta then RK4 f h hh t x0
  else xout

/-- Forward Euler recurrence as written in the specification (spec.md
section 4.1): starting from x = initialState and t = timeSpan, while
t > 0 evaluate dx = f(x), update x = x + h * dx, decrement t by h, and
return x. -/
def eulerSpec (f : V → V) (h : ℚ) (hh : 0 < h) (t : ℚ) (x : V) : V :=
  if ht : 0 < t then
    let dx := f x
    eulerSpec f h hh (t - h) (x + h • dx)
  else x
termination_by (⌈t / h⌉).toNat
decreasing_by exact steps_lt h t hh ht

/-- RK4 recurrence as written in the specification (spec.md section 4.1):
while t > 0 compute k1 = f(x), k2 = f(x + (h/2)*k1), k3 = f(x + (h/2)*k2),
k4 = f(x + h*k3), update x = x + (h/6)*(k1 + 2*k2 + 2*k3 + k4),
decrement t by h, and return x.  The intermediate stages use step h/2 and
the final stage uses step h. -/
def rk4Spec (f : V → V) (h : ℚ) (hh : 0 < h) (t : ℚ) (x : V) : V :=
  if ht : 0 < t then
    let k1 := f x
    let k2 := f (x + (h / 2) • k1)
    let k3 := f (x + (h / 2) • k2)
    let k4 := f (x + h • k3)
    rk4Spec f h hh (t - h) (x + (h / 6) • (k1 + (2 : ℚ) • k2 + (2 : ℚ) • k3 + k4))
  else x
termination_by (⌈t / h⌉).toNat
decreasing_by exact steps_lt h t hh ht

/-- Stored members of the NumericalIntegration class, lines 23-24: the
step size h, declared const in the source, and the functor f, copied by
value at construction.  The constructor (line 57) stores time_step into h
with no validation. -/
structure NumericalIntegration (V : Type) where
  h : ℚ
  f : V → V

/-- Method-call view of integrate: a call on an integrator object
returns the produced output value together with the object as it stands
after the call.  The member h is const and the functor is invoked as a
deterministic (pure) function, so the object after the call is the
object before it. -/
def integrateCall (s : NumericalIntegration V) (hh : 0 < s.h) (mode : ℕ)
    (t : ℚ) (x0 xout : V) : V × NumericalIntegration V :=
  (integrate s.f mode s.h hh t x0 xout, s)

end Defs

/-- Induction principle matching the control flow of the stepping loops:
to prove a property of every remaining span t, it suffices to prove it
when the loop guard fails and to propagate it across one iteration
(from t - h back to t).  Proved by strong induction on the iteration
measure. -/
lemma loop_ind (h : ℚ) (hh : 0 < h) (P : ℚ → Prop)
    (base : ∀ t, ¬ 0 < t → P t)
    (step : ∀ t, 0 < t → P (t - h) → P t) : ∀ t, P t := by
  have key : ∀ n : ℕ, ∀ t : ℚ, (⌈t / h⌉).toNat ≤ n → P t := by
    intro n
    induction n with
    | zero =>
      intro t hle
      by_cases ht : 0 < t
      · exfalso
        have h3 : 0 < ⌈t / h⌉ := Int.ceil_pos.mpr (div_pos ht hh)
        omega
      · exact base t ht
    | succ n ih =>
      intro t hle
      by_cases ht : 0 < t
      · refine step t ht (ih _ ?_)
        have := steps_lt h t hh ht
        omega
      · exact base t ht
  intro t
  exact key (⌈t / h⌉).toNat t le_rfl

section Lemmas

variable {V : Type} [AddCommGroup V] [Module ℚ V]

lemma ForwardEuler_of_pos (f : V → V) (h : ℚ) (hh : 0 < h) (t : ℚ) (x : V)
    (ht : 0 < t) :
    ForwardEuler f h hh t x = ForwardEuler f h hh (t - h) (x + h • f x) := by
  rw [ForwardEuler]
  simp [ht]

lemma ForwardEuler_of_nonpos (f : V → V) (h : ℚ) (hh : 0 < h) (t : ℚ) (x : V)
    (ht : ¬ 0 < t) : ForwardEuler f h hh t x = x := by
  rw [ForwardEuler]
  simp [ht]

lemma RK4_of_pos (f : V → V) (h : ℚ) (hh : 0 < h) (t : ℚ) (x : V)
    (ht : 0 < t) :
    RK4 f h hh t x = RK4 f h hh (t - h)
      (x + (h / 6) • (f x + (2 : ℚ) • f (x + (h / 2) • f x)
        + (2 : ℚ) • f (x + (h / 2) • f (x + (h / 2) • f x))
        + f (x + h • f (x + (h / 2) • f (x + (h / 2) • f x))))) := by
  rw [RK4]
  simp [ht]

lemma RK4_of_nonpos (f : V → V) (h : ℚ) (hh : 0 < h) (t : ℚ) (x : V)
    (ht : ¬ 0 < t) : RK4 f h hh t x = x := by
  rw [RK4]
  simp [ht]

lemma loopSteps_of_pos (h : ℚ) (hh : 0 < h) (t : ℚ) (ht : 0 < t) :
    loopSteps h hh t = loopSteps h hh (t - h) + 1 := by
  rw [loopSteps]
  simp [ht]

lemma loopSteps_of_nonpos (h : ℚ) (hh : 0 < h) (t : ℚ) (ht : ¬ 0 < t) :
    loopSteps h hh t = 0 := by
  rw [loopSteps]
  simp [ht]

/-- The ForwardEuler loop computes exactly the Euler recurrence of the
specification. -/
lemma ForwardEuler_eq_spec (f : V → V) (h : ℚ) (hh : 0 < h) (t : ℚ) (x : V) :
    ForwardEuler f h hh t x = eulerSpec f h hh t x := by
  refine loop_ind h hh (fun t => ∀ x, ForwardEuler f h hh t x = eulerSpec f h hh t x)
    ?_ ?_ t x
  · intro t ht x
    rw [ForwardEuler_of_nonpos f h hh t x ht, eulerSpec]
    simp [ht]
  · intro t ht ih x
    rw [ForwardEuler_of_pos f h hh t x ht, eulerSpec]
    simp only [ht, dif_pos]
    exact ih _

/-- The RK4 loop computes exactly the RK4 recurrence of the
specification. -/
lemma RK4_eq_spec (f : V → V) (h : ℚ) (hh : 0 < h) (t : ℚ) (x : V) :
    RK4 f h hh t x = rk4Spec f h hh t x := by
  refine loop_ind h hh (fun t => ∀ x, RK4 f h hh t x = rk4Spec f h hh t x)
    ?_ ?_ t x
  · intro t ht x
    rw [RK4_of_nonpos f h hh t x ht, rk4Spec]
    simp [ht]
  · intro t ht ih x
    rw [RK4_of_pos f h hh t x ht, rk4Spec]
    simp only [ht, dif_pos]
    exact ih _

/-- The number of iterations performed by the stepping loops is the
ceiling of time_span / h (clamped to zero for non-positive spans). -/
lemma loopSteps_eq_ceil (h : ℚ) (hh : 0 < h) (t : ℚ) :
    loopSteps h hh t = (⌈t / h⌉).toNat := by
  refine loop_ind h hh (fun t => loopSteps h hh t = (⌈t / h⌉).toNat) ?_ ?_ t
  · intro t ht
    rw [loopSteps_of_nonpos h hh t ht]
    have : ⌈t / h⌉ ≤ 0 := by
      apply Int.ceil_le.mpr
      exact_mod_cast div_nonpos_of_nonpos_of_nonneg (le_of_not_lt ht) hh.le
    omega
  · intro t ht ih
    rw [loopSteps_of_pos h hh t ht, ih]
    have h1 : (t - h) / h = t / h - 1 := by
      rw [sub_div, div_self hh.ne']
    have h2 : ⌈t / h - 1⌉ = ⌈t / h⌉ - 1 := by
      exact_mod_cast Int.ceil_sub_int (t / h) 1
    have h3 : 0 < ⌈t / h⌉ := Int.ceil_pos.mpr (div_pos ht hh)
    rw [h1, h2]
    omega

/-- The ForwardEuler loop is the loopSteps-fold iteration of its body on
the pair (working state, remaining span). -/
lemma ForwardEuler_eq_iterate (f : V → V) (h : ℚ) (hh : 0 < h) (t : ℚ) (x : V) :
    ForwardEuler f h hh t x = ((eulerStep f h)^[loopSteps h hh t] (x, t)).1 := by
  refine loop_ind h hh
    (fun t => ∀ x, ForwardEuler f h hh t x
      = ((eulerStep f h)^[loopSteps h hh t] (x, t)).1) ?_ ?_ t x
  · intro t ht x
    rw [ForwardEuler_of_nonpos f h hh t x ht, loopSteps_of_nonpos h hh t ht]
    rfl
  · intro t ht ih x
    rw [ForwardEuler_of_pos f h hh t x ht, loopSteps_of_pos h hh t ht, ih,
      Function.iterate_succ_apply]
    rfl

/-- The RK4 loop is the loopSteps-fold iteration of its body on the pair
(working state, remaining span). -/
lemma RK4_eq_iterate (f : V → V) (h : ℚ) (hh : 0 < h) (t : ℚ) (x : V) :
    RK4 f h hh t x = ((rk4Step f h)^[loopSteps h hh t] (x, t)).1 := by
  refine loop_ind h hh
    (fun t => ∀ x, RK4 f h hh t x
      = ((rk4Step f h)^[loopSteps h hh t] (x, t)).1) ?_ ?_ t x
  · intro t ht x
    rw [RK4_of_nonpos f h hh t x ht, loopSteps_of_nonpos h hh t ht]
    rfl
  · intro t ht ih x
    rw [RK4_of_pos f h hh t x ht, loopSteps_of_pos h hh t ht, ih,
      Function.iterate_succ_apply]
    rfl

/-- Remaining time span after n iterations of the Euler loop body. -/
lemma eulerStep_iterate_snd (f : V → V) (h : ℚ) (n : ℕ) (s : V × ℚ) :
    ((eulerStep f h)^[n] s).2 = s.2 - n * h := by
  induction n generalizing s with
  | zero => simp
  | succ n ih =>
    rw [Function.iterate_succ_apply, ih]
    simp [eulerStep]
    ring

/-- Remaining time span after n iterations of the RK4 loop body. -/
lemma rk4Step_iterate_snd (f : V → V) (h : ℚ) (n : ℕ) (s : V × ℚ) :
    ((rk4Step f h)^[n] s).2 = s.2 - n * h := by
  induction n generalizing s with
  | zero => simp
  | succ n ih =>
    rw [Function.iterate_succ_apply, ih]
    simp [rk4Step]
    ring

end Lemmas

/-- C1: when the method selector is Euler, integrate(timeSpan, x0, xout)
computes exactly the forward-Euler recurrence of the specification:
starting from x = x0 and t = timeSpan, while t > 0 it evaluates
dx = f(x), updates x = x + h * dx, decrements t by h, and the returned
final state is the x so computed. -/
theorem integrate_euler_computes_spec_recurrence {V : Type} [AddCommGroup V]
    [Module ℚ V] (f : V → V) (h : ℚ) (hh : 0 < h) (t : ℚ) (x0 xout : V) :
    integrate f Euler h hh t x0 xout = eulerSpec f h hh t x0 := by
  simp [integrate, ForwardEuler_eq_spec]

/-- Witness for C1 at a concrete input. -/
theorem integrate_euler_computes_spec_recurrence_witness :
    integrate (fun x : ℚ => x) Euler 1 one_pos 1 1 0
      = eulerSpec (fun x : ℚ => x) 1 one_pos 1 1 :=
  integrate_euler_computes_spec_recurrence (fun x : ℚ => x) 1 one_pos 1 1 0

/-- C2: when the method selector is RungeKutta, integrate(timeSpan, x0,
xout) computes exactly the RK4 recurrence of the specification: while
t > 0 it evaluates k1 = f(x), k2 = f(x + (h/2)*k1), k3 = f(x + (h/2)*k2),
k4 = f(x + h*k3), updates x = x + (h/6)*(k1 + 2*k2 + 2*k3 + k4) and
decrements t by h; the intermediate stages use step h/2 and the final
stage uses step h, as rk4Spec states. -/
theorem integrate_rk4_computes_spec_recurrence {V : Type} [AddCommGroup V]
    [Module ℚ V] (f : V → V) (h : ℚ) (hh : 0 < h) (t : ℚ) (x0 xout : V) :
    integrate f RungeKutta h hh t x0 xout = rk4Spec f h hh t x0 := by
  simp [integrate, Euler, RungeKutta, RK4_eq_spec]

/-- Witness for C2 at a concrete input. -/
theorem integrate_rk4_computes_spec_recurrence_witness :
    integrate (fun x : ℚ => x) RungeKutta 1 one_pos 1 1 0
      = rk4Spec (fun x : ℚ => x) 1 one_pos 1 1 :=
  integrate_rk4_computes_spec_recurrence (fun x : ℚ => x) 1 one_pos 1 1 0

/-- C3: for every h > 0 and timeSpan > 0, both the Euler and the RK4
loop execute exactly ceil(timeSpan / h) iterations of their bodies, and
when timeSpan is not an exact multiple of h the total time advanced
(steps * h) exceeds timeSpan: the last step is not clamped to land
exactly on timeSpan. -/
theorem loops_step_count_and_overshoot {V : Type} [AddCommGroup V]
    [Module ℚ V] (f : V → V) (h t : ℚ) (hh : 0 < h) (ht : 0 < t) (x : V) :
    (loopSteps h hh t : ℤ) = ⌈t / h⌉
    ∧ ForwardEuler f h hh t x = ((eulerStep f h)^[(⌈t / h⌉).toNat] (x, t)).1
    ∧ RK4 f h hh t x = ((rk4Step f h)^[(⌈t / h⌉).toNat] (x, t)).1
    ∧ ((¬ ∃ n : ℕ, t = (n : ℚ) * h) → t < (loopSteps h hh t : ℚ) * h) := by
  have hsteps := loopSteps_eq_ceil h hh t
  have hpos : 0 < ⌈t / h⌉ := Int.ceil_pos.mpr (div_pos ht hh)
  have hcast : (loopSteps h hh t : ℤ) = ⌈t / h⌉ := by
    rw [hsteps]
    omega
  refine ⟨hcast, ?_, ?_, ?_⟩
  · rw [ForwardEuler_eq_iterate, hsteps]
  · rw [RK4_eq_iterate, hsteps]
  · intro hne
    have hQ : (loopSteps h hh t : ℚ) = ((⌈t / h⌉ : ℤ) : ℚ) := by
      exact_mod_cast congrArg (fun z : ℤ => (z : ℚ)) hcast
    have hlt : t / h < ((⌈t / h⌉ : ℤ) : ℚ) := by
      refine lt_of_le_of_ne (Int.le_ceil _) ?_
      intro heq
      apply hne
      refine ⟨(⌈t / h⌉).toNat, ?_⟩
      have h1 : t = ((⌈t / h⌉ : ℤ) : ℚ) * h := (div_eq_iff hh.ne').mp heq
      have h2 : (((⌈t / h⌉).toNat : ℕ) : ℚ) = ((⌈t / h⌉ : ℤ) : ℚ) := by
        exact_mod_cast congrArg (fun z : ℤ => (z : ℚ)) (Int.toNat_of_nonneg hpos.le)
      rw [h2]
      exact h1
    rw [hQ]
    exact (div_lt_iff₀ hh).mp hlt

/-- Witness for C3 at h = 1 and timeSpan = 3/2, which is not an exact
multiple of the step. -/
theorem loops_step_count_and_overshoot_witness :
    (loopSteps 1 one_pos (3 / 2 : ℚ) : ℤ) = ⌈(3 / 2 : ℚ) / 1⌉
    ∧ (3 / 2 : ℚ) < (loopSteps 1 one_pos (3 / 2 : ℚ) : ℚ) * 1 := by
  obtain ⟨h1, _, _, h4⟩ :=
    loops_step_count_and_overshoot (fun x : ℚ => x) 1 (3 / 2) one_pos
      (by norm_num) 0
  refine ⟨h1, h4 ?_⟩
  rintro ⟨n, hn⟩
  have h2 : ((2 * n : ℕ) : ℚ) = 3 := by
    push_cast
    linarith
  have h3 : (2 * n : ℕ) = 3 := by
    exact_mod_cast h2
  omega

/-- C4: for h > 0 the stepping loop of either method reaches a state in
which the guard time_span > 0 fails after finitely many iterations of
its body, so integrate terminates; for h ≤ 0 and timeSpan > 0 the guard
holds after every number of iterations, so the loop never terminates. -/
theorem loop_termination_dichotomy {V : Type} [AddCommGroup V]
    [Module ℚ V] (f : V → V) (h t : ℚ) (x : V) :
    (0 < h → ∃ n : ℕ, ((eulerStep f h)^[n] (x, t)).2 ≤ 0
      ∧ ((rk4Step f h)^[n] (x, t)).2 ≤ 0)
    ∧ (h ≤ 0 → 0 < t → ∀ n : ℕ, 0 < ((eulerStep f h)^[n] (x, t)).2
      ∧ 0 < ((rk4Step f h)^[n] (x, t)).2) := by
  constructor
  · intro hh
    obtain ⟨n, hn⟩ := exists_nat_gt (t / h)
    have hlt : t < n * h := (div_lt_iff₀ hh).mp hn
    exact ⟨n, by rw [eulerStep_iterate_snd]; dsimp; linarith,
      by rw [rk4Step_iterate_snd]; dsimp; linarith⟩
  · intro hh ht n
    have hnh : (n : ℚ) * h ≤ 0 :=
      mul_nonpos_of_nonneg_of_nonpos (Nat.cast_nonneg n) hh
    exact ⟨by rw [eulerStep_iterate_snd]; dsimp; linarith,
      by rw [rk4Step_iterate_snd]; dsimp; linarith⟩

/-- Witness for C4: with h = 1 the guard eventually fails; with h = -1
and timeSpan = 1 the guard survives every iteration count. -/
theorem loop_termination_dichotomy_witness :
    (∃ n : ℕ, ((eulerStep (fun x : ℚ => x) 1)^[n] (0, 1)).2 ≤ 0
      ∧ ((rk4Step (fun x : ℚ => x) 1)^[n] (0, 1)).2 ≤ 0)
    ∧ (∀ n : ℕ, 0 < ((eulerStep (fun x : ℚ => x) (-1))^[n] (0, 1)).2
      ∧ 0 < ((rk4Step (fun x : ℚ => x) (-1))^[n] (0, 1)).2) :=
  ⟨(loop_termination_dichotomy (fun x : ℚ => x) 1 1 0).1 (by norm_num),
   (loop_termination_dichotomy (fun x : ℚ => x) (-1) 1 0).2 (by norm_num)
     (by norm_num)⟩

/-- C5: for h > 0 and timeSpan ≤ 0, integrate returns the initial state
unmodified for both methods; the loops simply never run their bodies and
no error is raised (the functions are total on this input). -/
theorem integrate_nonpos_span_identity {V : Type} [AddCommGroup V]
    [Module ℚ V] (f : V → V) (h t : ℚ) (hh : 0 < h) (ht : t ≤ 0)
    (x0 xout : V) :
    integrate f Euler h hh t x0 xout = x0
    ∧ integrate f RungeKutta h hh t x0 xout = x0 := by
  have hng : ¬ 0 < t := not_lt.mpr ht
  constructor
  · simp [integrate, Euler, RungeKutta, ForwardEuler_of_nonpos f h hh t x0 hng]
  · simp [integrate, Euler, RungeKutta, RK4_of_nonpos f h hh t x0 hng]

/-- Witness for C5 at a concrete input with a negative span. -/
theorem integrate_nonpos_span_identity_witness :
    integrate (fun x : ℚ => x) Euler 1 one_pos (-1) 5 7 = 5
    ∧ integrate (fun x : ℚ => x) RungeKutta 1 one_pos (-1) 5 7 = 5 :=
  integrate_nonpos_span_identity (fun x : ℚ => x) 1 (-1) one_pos
    (by norm_num) 5 7

/-- C6: for any method-selector value outside the two declared enum
members, integrate falls through the default branch doing nothing: the
output parameter keeps the value it held before the call, and in
particular is not assigned the initial state. -/
theorem integrate_invalid_mode_leaves_xout {V : Type} [AddCommGroup V]
    [Module ℚ V] (f : V → V) (mode : ℕ) (h t : ℚ) (hh : 0 < h)
    (hm1 : mode ≠ Euler) (hm2 : mode ≠ RungeKutta) (x0 xout : V) :
    integrate f mode h hh t x0 xout = xout := by
  simp [integrate, hm1, hm2]

/-- Witness for C6: mode 2 leaves the previous output value 7 in place,
which differs from the initial state 5. -/
theorem integrate_invalid_mode_leaves_xout_witness :
    integrate (fun x : ℚ => x) 2 1 one_pos 1 5 7 = 7 ∧ (7 : ℚ) ≠ 5 :=
  ⟨integrate_invalid_mode_leaves_xout (fun x : ℚ => x) 2 1 1 one_pos
    (by decide) (by decide) 5 7, by norm_num⟩

section MoreLemmas

variable {V : Type} [AddCommGroup V] [Module ℚ V]

/-- Euler stepping with a constant derivative k over a span of exactly n
steps accumulates n times h • k. -/
lemma ForwardEuler_const (k : V) (h : ℚ) (hh : 0 < h) (n : ℕ) (x : V) :
    ForwardEuler (fun _ => k) h hh ((n : ℚ) * h) x = x + ((n : ℚ) * h) • k := by
  induction n generalizing x with
  | zero =>
    rw [ForwardEuler_of_nonpos]
    · simp
    · simp
  | succ n ih =>
    have ht : 0 < ((n + 1 : ℕ) : ℚ) * h := by positivity
    rw [ForwardEuler_of_pos _ _ _ _ _ ht]
    have harg : ((n + 1 : ℕ) : ℚ) * h - h = (n : ℚ) * h := by
      push_cast
      ring
    rw [harg, ih]
    have hco : h + (n : ℚ) * h = ((n + 1 : ℕ) : ℚ) * h := by
      push_cast
      ring
    rw [add_assoc, ← add_smul, hco]

/-- With a constant derivative the four RK4 stage evaluations coincide,
so one RK4 step equals one Euler step, and the whole RK4 loop equals the
whole Euler loop. -/
lemma RK4_const_eq_ForwardEuler (c : V) (h : ℚ) (hh : 0 < h) (t : ℚ) (x : V) :
    RK4 (fun _ => c) h hh t x = ForwardEuler (fun _ => c) h hh t x := by
  refine loop_ind h hh
    (fun t => ∀ x, RK4 (fun _ => c) h hh t x
      = ForwardEuler (fun _ => c) h hh t x) ?_ ?_ t x
  · intro t ht x
    rw [RK4_of_nonpos _ _ _ _ _ ht, ForwardEuler_of_nonpos _ _ _ _ _ ht]
  · intro t ht ih x
    rw [RK4_of_pos _ _ hh _ _ ht, ForwardEuler_of_pos _ _ hh _ _ ht]
    have harg : x + (h / 6) • (c + (2 : ℚ) • c + (2 : ℚ) • c + c) = x + h • c := by
      module
    simp only at harg ⊢
    rw [harg]
    exact ih _

/-- Each Euler loop iteration preserves rational linear combinations of
the working state whenever the derivative function does, hence the whole
Euler loop does. -/
lemma ForwardEuler_lin (f : V → V)
    (hf : ∀ (a b : ℚ) (x y : V), f (a • x + b • y) = a • f x + b • f y)
    (h : ℚ) (hh : 0 < h) (t : ℚ) (a b : ℚ) (x y : V) :
    ForwardEuler f h hh t (a • x + b • y)
      = a • ForwardEuler f h hh t x + b • ForwardEuler f h hh t y := by
  refine loop_ind h hh
    (fun t => ∀ (a b : ℚ) (x y : V), ForwardEuler f h hh t (a • x + b • y)
      = a • ForwardEuler f h hh t x + b • ForwardEuler f h hh t y)
    ?_ ?_ t a b x y
  · intro t ht a b x y
    rw [ForwardEuler_of_nonpos _ _ _ _ _ ht, ForwardEuler_of_nonpos _ _ _ _ _ ht,
      ForwardEuler_of_nonpos _ _ _ _ _ ht]
  · intro t ht ih a b x y
    have harg : a • x + b • y + h • f (a • x + b • y)
        = a • (x + h • f x) + b • (y + h • f y) := by
      rw [hf a b x y]
      module
    rw [ForwardEuler_of_pos _ _ _ _ _ ht, ForwardEuler_of_pos _ _ _ _ _ ht,
      ForwardEuler_of_pos _ _ _ _ _ ht, harg]
    exact ih a b _ _

/-- Each RK4 loop iteration preserves rational linear combinations of
the working state whenever the derivative function does: every stage
input is itself such a combination, so all four stage evaluations
distribute, and so does the update. -/
lemma RK4_lin (f : V → V)
    (hf : ∀ (a b : ℚ) (x y : V), f (a • x + b • y) = a • f x + b • f y)
    (h : ℚ) (hh : 0 < h) (t : ℚ) (a b : ℚ) (x y : V) :
    RK4 f h hh t (a • x + b • y)
      = a • RK4 f h hh t x + b • RK4 f h hh t y := by
  refine loop_ind h hh
    (fun t => ∀ (a b : ℚ) (x y : V), RK4 f h hh t (a • x + b • y)
      = a • RK4 f h hh t x + b • RK4 f h hh t y)
    ?_ ?_ t a b x y
  · intro t ht a b x y
    rw [RK4_of_nonpos _ _ _ _ _ ht, RK4_of_nonpos _ _ _ _ _ ht,
      RK4_of_nonpos _ _ _ _ _ ht]
  · intro t ht ih a b x y
    have e1 : f (a • x + b • y) = a • f x + b • f y := hf a b x y
    have s1 : a • x + b • y + (h / 2) • f (a • x + b • y)
        = a • (x + (h / 2) • f x) + b • (y + (h / 2) • f y) := by
      rw [e1]
      module
    have e2 : f (a • x + b • y + (h / 2) • f (a • x + b • y))
        = a • f (x + (h / 2) • f x) + b • f (y + (h / 2) • f y) := by
      rw [s1]
      exact hf a b _ _
    have s2 : a • x + b • y
          + (h / 2) • f (a • x + b • y + (h / 2) • f (a • x + b • y))
        = a • (x + (h / 2) • f (x + (h / 2) • f x))
          + b • (y + (h / 2) • f (y + (h / 2) • f y)) := by
      rw [e2]
      module
    have e3 : f (a • x + b • y
          + (h / 2) • f (a • x + b • y + (h / 2) • f (a • x + b • y)))
        = a • f (x + (h / 2) • f (x + (h / 2) • f x))
          + b • f (y + (h / 2) • f (y + (h / 2) • f y)) := by
      rw [s2]
      exact hf a b _ _
    have s3 : a • x + b • y + h • f (a • x + b • y
          + (h / 2) • f (a • x + b • y + (h / 2) • f (a • x + b • y)))
        = a • (x + h • f (x + (h / 2) • f (x + (h / 2) • f x)))
          + b • (y + h • f (y + (h / 2) • f (y + (h / 2) • f y))) := by
      rw [e3]
      module
    have e4 : f (a • x + b • y + h • f (a • x + b • y
          + (h / 2) • f (a • x + b • y + (h / 2) • f (a • x + b • y))))
        = a • f (x + h • f (x + (h / 2) • f (x + (h / 2) • f x)))
          + b • f (y + h • f (y + (h / 2) • f (y + (h / 2) • f y))) := by
      rw [s3]
      exact hf a b _ _
    have hbody : a • x + b • y + (h / 6) • (f (a • x + b • y)
          + (2 : ℚ) • f (a • x + b • y + (h / 2) • f (a • x + b • y))
          + (2 : ℚ) • f (a • x + b • y
            + (h / 2) • f (a • x + b • y + (h / 2) • f (a • x + b • y)))
          + f (a • x + b • y + h • f (a • x + b • y
            + (h / 2) • f (a • x + b • y + (h / 2) • f (a • x + b • y)))))
        = a • (x + (h / 6) • (f x + (2 : ℚ) • f (x + (h / 2) • f x)
            + (2 : ℚ) • f (x + (h / 2) • f (x + (h / 2) • f x))
            + f (x + h • f (x + (h / 2) • f (x + (h / 2) • f x)))))
          + b • (y + (h / 6) • (f y + (2 : ℚ) • f (y + (h / 2) • f y)
            + (2 : ℚ) • f (y + (h / 2) • f (y + (h / 2) • f y))
            + f (y + h • f (y + (h / 2) • f (y + (h / 2) • f y))))) := by
      rw [e4, e3, e2, e1]
      module
    rw [RK4_of_pos _ _ _ _ _ ht, RK4_of_pos _ _ _ _ x ht, RK4_of_pos _ _ _ _ y ht,
      hbody]
    exact ih a b _ _

end MoreLemmas

/-- C7: for the constant derivative f(x) = k, Euler integration with
step h > 0 over timeSpan = n * h yields exactly x0 + (n * h) • k; in the
rational-arithmetic embedding the accumulation is exact. -/
theorem euler_constant_derivative {V : Type} [AddCommGroup V] [Module ℚ V]
    (k x0 xout : V) (h : ℚ) (hh : 0 < h) (n : ℕ) :
    integrate (fun _ => k) Euler h hh ((n : ℚ) * h) x0 xout
      = x0 + ((n : ℚ) * h) • k := by
  simp only [integrate, if_pos rfl]
  exact ForwardEuler_const k h hh n x0

/-- Witness for C7: three unit steps with constant derivative 2 starting
from 1 give 7. -/
theorem euler_constant_derivative_witness :
    integrate (fun _ : ℚ => (2 : ℚ)) Euler 1 one_pos (((3 : ℕ) : ℚ) * 1) 1 0
      = 1 + (((3 : ℕ) : ℚ) * 1) • (2 : ℚ) :=
  euler_constant_derivative (2 : ℚ) 1 0 1 one_pos 3

/-- C8: integrate is deterministic and pure with respect to integrator
state: the integrator object after a call equals the object before it
(in particular the stored step size h is unchanged), and a second call
on the post-call object with the same time span and initial state
produces the same output as the first call. -/
theorem integrate_deterministic_and_pure {V : Type} [AddCommGroup V]
    [Module ℚ V] (s : NumericalIntegration V) (hh : 0 < s.h) (mode : ℕ)
    (t : ℚ) (x0 xout : V) :
    (integrateCall s hh mode t x0 xout).2 = s
    ∧ (integrateCall s hh mode t x0 xout).2.h = s.h
    ∧ (integrateCall (integrateCall s hh mode t x0 xout).2 hh mode t x0 xout).1
      = (integrateCall s hh mode t x0 xout).1 :=
  ⟨rfl, rfl, rfl⟩

/-- Witness for C8 on a concrete integrator object. -/
theorem integrate_deterministic_and_pure_witness :
    (integrateCall ⟨1, fun x : ℚ => x⟩ one_pos Euler 1 1 0).2
      = (⟨1, fun x : ℚ => x⟩ : NumericalIntegration ℚ)
    ∧ (integrateCall ⟨1, fun x : ℚ => x⟩ one_pos Euler 1 1 0).2.h = 1
    ∧ (integrateCall (integrateCall ⟨1, fun x : ℚ => x⟩ one_pos Euler 1 1 0).2
        one_pos Euler 1 1 0).1
      = (integrateCall ⟨1, fun x : ℚ => x⟩ one_pos Euler 1 1 0).1 :=
  integrate_deterministic_and_pure ⟨1, fun x : ℚ => x⟩ one_pos Euler 1 1 0

/-- C9: for a constant derivative function the Euler and RungeKutta
selections of integrate produce exactly the same final state, because
all four RK4 stage evaluations equal the constant and one RK4 step
collapses to one Euler step. -/
theorem euler_rk4_agree_on_constant {V : Type} [AddCommGroup V]
    [Module ℚ V] (c x0 xout : V) (h t : ℚ) (hh : 0 < h) :
    integrate (fun _ => c) RungeKutta h hh t x0 xout
      = integrate (fun _ => c) Euler h hh t x0 xout := by
  simp only [integrate, Euler, RungeKutta, if_pos rfl]
  norm_num
  exact RK4_const_eq_ForwardEuler c h hh t x0

/-- Witness for C9 at a concrete constant derivative. -/
theorem euler_rk4_agree_on_constant_witness :
    integrate (fun _ : ℚ => (2 : ℚ)) RungeKutta 1 one_pos (3 / 2) 5 0
      = integrate (fun _ : ℚ => (2 : ℚ)) Euler 1 one_pos (3 / 2) 5 0 :=
  euler_rk4_agree_on_constant (2 : ℚ) 5 0 1 (3 / 2) one_pos

/-- C10: for a derivative function preserving rational linear
combinations, the map from initial state to final state computed by
integrate is itself linear, for both the Euler and the RungeKutta
selection. -/
theorem integrate_linear_in_initial_state {V : Type} [AddCommGroup V]
    [Module ℚ V] (f : V → V)
    (hf : ∀ (a b : ℚ) (x y : V), f (a • x + b • y) = a • f x + b • f y)
    (h t : ℚ) (hh : 0 < h) (a b : ℚ) (x0 y0 xout : V) :
    integrate f Euler h hh t (a • x0 + b • y0) xout
      = a • integrate f Euler h hh t x0 xout
        + b • integrate f Euler h hh t y0 xout
    ∧ integrate f RungeKutta h hh t (a • x0 + b • y0) xout
      = a • integrate f RungeKutta h hh t x0 xout
        + b • integrate f RungeKutta h hh t y0 xout := by
  constructor
  · simp only [integrate, if_pos rfl]
    exact ForwardEuler_lin f hf h hh t a b x0 y0
  · simp only [integrate, Euler, RungeKutta, if_pos rfl]
    norm_num
    exact RK4_lin f hf h hh t a b x0 y0

/-- Witness for C10 with the identity derivative on the rationals. -/
theorem integrate_linear_in_initial_state_witness :
    integrate (fun x : ℚ => x) Euler 1 one_pos 1 ((2 : ℚ) • 1 + (3 : ℚ) • 5) 0
      = (2 : ℚ) • integrate (fun x : ℚ => x) Euler 1 one_pos 1 1 0
        + (3 : ℚ) • integrate (fun x : ℚ => x) Euler 1 one_pos 1 5 0
    ∧ integrate (fun x : ℚ => x) RungeKutta 1 one_pos 1 ((2 : ℚ) • 1 + (3 : ℚ) • 5) 0
      = (2 : ℚ) • integrate (fun x : ℚ => x) RungeKutta 1 one_pos 1 1 0
        + (3 : ℚ) • integrate (fun x : ℚ => x) RungeKutta 1 one_pos 1 5 0 :=
  integrate_linear_in_initial_state (fun x : ℚ => x)
    (fun a b x y => rfl) 1 1 one_pos 2 3 1 5 0

end KalmanFilter
